import Mathlib

/-!
Shallow embedding of `src/task.py` (sorting-algorithms comparison script)
and proofs of its specified properties.

The script's core consists of:
* `insertion_sort` — in-place insertion sort (outer `for` over indices
  `1 .. len-1`, inner shifting `while` loop);
* `merge` — two-pointer merge of two lists;
* `merge_sort` — recursive merge sort splitting at `len // 2`;
* `python_sort` / `python_sorted` — wrappers of the built-in sort;
* `benchmark` — times a function on fresh copies of the data;
* `compare_sorting_algorithms` — seeds an RNG once, generates one base
  dataset per size, benchmarks all four sorts on copies of it;
* `_scale_theoretical_curve` — endpoint rescaling of a curve.

Numbers are modelled exactly: dataset values as `Int`, curve values as `Rat`
(the script manipulates them with exact-result arithmetic in the properties
claimed).  Python comparisons `x < y` / `x <= y` are embedded via a key
function `k` into a linear order (`k = id` recovers plain element
comparison; a projection key models "keyed by first component").
In-place mutation and aliasing are modelled by a store of list cells.
-/

set_option maxHeartbeats 1600000

namespace Task

section Sorts

variable {α : Type*} {κ : Type*} [LinearOrder κ]

/-- Inner `while` loop of `insertion_sort` (src/task.py lines 14–17):
`while j >= 0 and key < lst[j]: lst[j+1] = lst[j]; j -= 1` followed by the
final `lst[j+1] = key`.  The `Nat` argument is `j + 1` (so `0` encodes the
Python state `j = -1`); each iteration shifts `lst[j]` one slot right and
decrements `j`. -/
def insertKeyLoop (k : α → κ) (key : α) : List α → Nat → List α
  | lst, 0 => lst.set 0 key
  | lst, j + 1 =>
    if k key < k (lst.getD j key) then
      insertKeyLoop k key (lst.set (j + 1) (lst.getD j key)) j
    else lst.set (j + 1) key

/-- One iteration of the outer `for` loop of `insertion_sort` at index `i`:
`key = lst[i]`, then the shifting loop starting at `j = i - 1` (encoded
`i`).  The `none` branch is unreachable for in-range `i`. -/
def sortPass (k : α → κ) (acc : List α) (i : Nat) : List α :=
  match acc[i]? with
  | none => acc
  | some key => insertKeyLoop k key acc i

/-- `insertion_sort` (src/task.py lines 9–18): for each `i` in
`range(1, len(lst))`, save `key = lst[i]` and run the inner shifting loop
starting at `j = i - 1`.  Returns the (same) sequence. -/
def insertion_sort (k : α → κ) (lst : List α) : List α :=
  (List.range' 1 (lst.length - 1)).foldl (sortPass k) lst

/-- Functional model of one insertion step: place `x` immediately before the
first element `y` with `k x < k y` (so after every element of equal key —
exactly where the shifting loop of `insertion_sort` deposits `key` in a
sorted prefix). -/
def insertFun (k : α → κ) (x : α) : List α → List α
  | [] => [x]
  | y :: ys => if k x < k y then x :: y :: ys else y :: insertFun k x ys

/-- Functional model of `insertion_sort`: fold `insertFun` over the input,
building the sorted prefix left to right. -/
def insertionSortFun (k : α → κ) (l : List α) : List α :=
  l.foldl (fun acc x => insertFun k x acc) []

/-- `merge` (src/task.py lines 21–43): two-pointer merge.  The main loop
compares `left[left_index] <= right[right_index]` and takes the left element
on ties; the two trailing loops append the remainder of whichever side is
not yet exhausted.  Indices into `left`/`right` are represented by the
not-yet-consumed suffixes. -/
def merge (k : α → κ) : List α → List α → List α
  | [], right => right
  | left, [] => left
  | x :: xs, y :: ys =>
    if k x ≤ k y then x :: merge k xs (y :: ys)
    else y :: merge k (x :: xs) ys
termination_by l r => l.length + r.length

/-- `merge_sort` (src/task.py lines 46–54): length ≤ 1 is returned as-is,
otherwise split at `mid = len // 2` and merge the recursively sorted
halves. -/
def merge_sort (k : α → κ) (arr : List α) : List α :=
  if arr.length ≤ 1 then arr
  else
    merge k (merge_sort k (arr.take (arr.length / 2)))
      (merge_sort k (arr.drop (arr.length / 2)))
termination_by arr.length
decreasing_by
  · simp only [List.length_take]
    omega
  · simp only [List.length_drop]
    omega

/-- Sortedness in non-decreasing order of the keys. -/
abbrev SortedK (k : α → κ) (l : List α) : Prop :=
  l.Pairwise (fun a b => k a ≤ k b)

/-- The sublist of elements whose key is `v`; two lists with the same
`keyFilter` at every `v` present equal-key elements in the same relative
order (the stability observable). -/
def keyFilter (k : α → κ) (v : κ) (l : List α) : List α :=
  l.filter (fun y => decide (k y = v))



/-- Fuel-indexed inner shifting loop: one unit of fuel per iteration.
`none` means the fuel ran out before the loop condition `j >= 0 and
key < lst[j]` failed. -/
def insertKeyLoopFuel (k : α → κ) (key : α) : Nat → List α → Nat → Option (List α)
  | 0, _, _ => none
  | _ + 1, lst, 0 => some (lst.set 0 key)
  | fuel + 1, lst, j + 1 =>
    if k key < k (lst.getD j key) then
      insertKeyLoopFuel k key fuel (lst.set (j + 1) (lst.getD j key)) j
    else some (lst.set (j + 1) key)

/-- Fuel-indexed merge loop: one unit of fuel per iteration of the main
two-pointer loop (each iteration advances `left_index + right_index`). -/
def mergeFuel (k : α → κ) : Nat → List α → List α → Option (List α)
  | 0, _, _ => none
  | _ + 1, [], right => some right
  | _ + 1, left, [] => some left
  | fuel + 1, x :: xs, y :: ys =>
    if k x ≤ k y then (mergeFuel k fuel xs (y :: ys)).map (fun t => x :: t)
    else (mergeFuel k fuel (x :: xs) ys).map (fun t => y :: t)

/-- Fuel-indexed recursive merge sort: one unit of fuel per level of
recursion; recursion happens only on the two strict halves. -/
def merge_sortFuel (k : α → κ) : Nat → List α → Option (List α)
  | 0, _ => none
  | fuel + 1, arr =>
    if arr.length ≤ 1 then some arr
    else
      match merge_sortFuel k fuel (arr.take (arr.length / 2)),
          merge_sortFuel k fuel (arr.drop (arr.length / 2)) with
      | some l, some r => some (merge k l r)
      | _, _ => none


end Sorts

/-! ### Curve scaler -/

/-- `_scale_theoretical_curve` (src/task.py lines 106–118): returns
`values` untouched when `values` or `reference` is empty or the last value
is zero; otherwise multiplies every element by
`factor = reference[-1] / values[-1]`.  Numbers are modelled as exact
rationals. -/
def _scale_theoretical_curve (values reference : List ℚ) : List ℚ :=
  if values = [] ∨ reference = [] ∨ values.getLastD 0 = 0 then values
  else
    let factor := reference.getLastD 0 / values.getLastD 0
    values.map (fun value => value * factor)

/-! ### Store model of Python list objects

A `Store` is a heap of integer-list cells; a reference is an index into
it.  Python's aliasing and in-place mutation is modelled by functions from
store to store; `data.copy()` is allocation of a fresh cell with the same
contents. -/

abbrev Store := List (List ℤ)

def readCell (s : Store) (r : Nat) : List ℤ := s.getD r []

def writeCell (s : Store) (r : Nat) (v : List ℤ) : Store := s.set r v

def allocCell (s : Store) (v : List ℤ) : Store × Nat := (s ++ [v], s.length)

/-- Store-level `insertion_sort`: rearranges the referenced list in place
(net effect of the element writes: the cell holds the sorted value) and
returns the same reference. -/
def insertion_sortRef (r : Nat) (s : Store) : Nat × Store :=
  (r, writeCell s r (insertion_sort id (readCell s r)))

/-- Store-level `merge_sort`: a sequence of length ≤ 1 is returned as-is
(same reference, no copy, no writes); otherwise the result is a freshly
allocated list and no existing cell is written. -/
def merge_sortRef (r : Nat) (s : Store) : Nat × Store :=
  if (readCell s r).length ≤ 1 then (r, s)
  else
    let (s', r') := allocCell s (merge_sort id (readCell s r))
    (r', s')

/-- Observable result of Python's built-in list sort on integers: the
non-decreasing permutation of the input (computed here by the verified
`merge_sort id`; on integers any correct sort produces this value). -/
def builtinSorted (l : List ℤ) : List ℤ := merge_sort id l

/-- Store-level `python_sort` (src/task.py lines 57–60): `lst.sort()` in
place, returns the same reference. -/
def python_sortRef (r : Nat) (s : Store) : Nat × Store :=
  (r, writeCell s r (builtinSorted (readCell s r)))

/-- Store-level `python_sorted` (src/task.py lines 63–65): `sorted(lst)`
returns a fresh list, the input cell is untouched. -/
def python_sortedRef (r : Nat) (s : Store) : Nat × Store :=
  let (s', r') := allocCell s (builtinSorted (readCell s r))
  (r', s')

/-- Store-level `benchmark` (src/task.py lines 68–70): the timed lambda
`function(data.copy())` runs `repeats` times; each run allocates a fresh
copy of `data` and hands that reference to `function`.  The elapsed time
is outside the store model; the final store is returned. -/
def benchmarkRef (function : Nat → Store → Nat × Store) (data : Nat) :
    Nat → Store → Store
  | 0, s => s
  | n + 1, s =>
    let (s₁, rc) := allocCell s (readCell s data)
    let (_, s₂) := function rc s₁
    benchmarkRef function data n s₂

/-- A store function that behaves like a Python function applied to a
single list argument: every pre-existing cell other than its argument is
left unchanged. -/
def LocalFn (f : Nat → Store → Nat × Store) : Prop :=
  ∀ r s i, i < s.length → i ≠ r → readCell (f r s).2 i = readCell s i

/-- A store function that never deletes cells (Python has no
deallocation primitive). -/
def GrowFn (f : Nat → Store → Nat × Store) : Prop :=
  ∀ r s, s.length ≤ (f r s).2.length

section Compare

variable {σ : Type*} {τ : Type*}

/-- One Result Entry (src/task.py lines 94–100): the size plus one timing
per algorithm, with the dict keys of the source as field names. -/
structure SizeResult (τ : Type*) where
  size : Nat
  insertion_sort : τ
  merge_sort : τ
  list_sort : τ
  sorted : τ
deriving Repr, DecidableEq

/-- `[rng.randint(lo, hi) for _ in range(n)]`: draw `n` values left to
right, threading the generator state. -/
def randList (randint : σ → ℤ → ℤ → ℤ × σ) (lo hi : ℤ) :
    Nat → σ → List ℤ × σ
  | 0, g => ([], g)
  | n + 1, g =>
    let p := randint g lo hi
    let q := randList randint lo hi n p.2
    (p.1 :: q.1, q.2)

/-- Pure-value `benchmark` (src/task.py lines 68–70):
`timeit.timeit(lambda: function(data.copy()), number=repeats)`.  The
wall-clock duration is an abstract value produced by the ambient timer
`timeOf` from the function object, the dataset value and the repeat
count; `benchmark` adds nothing of its own. -/
def benchmark (timeOf : (Nat → Store → Nat × Store) → List ℤ → Nat → τ)
    (function : Nat → Store → Nat × Store) (data : List ℤ)
    (repeats : Nat) : τ :=
  timeOf function data repeats

def defaultListSizes : List Nat := [10, 100, 1000, 5000]

def defaultRepeats : Nat := 5

def defaultSeed : ℤ := 42

def defaultValueRange : ℤ × ℤ := (-10000, 10000)

/-- The `for size in list_sizes` loop of `compare_sorting_algorithms`
(src/task.py lines 92–101): per size, draw the base dataset from the
threaded generator, benchmark all four algorithms against that same
dataset, and append the Result Entry. -/
def compareLoop (timeOf : (Nat → Store → Nat × Store) → List ℤ → Nat → τ)
    (randint : σ → ℤ → ℤ → ℤ × σ) (lo hi : ℤ) (repeats : Nat) :
    List Nat → σ → List (SizeResult τ)
  | [], _ => []
  | size :: rest, g =>
    let p := randList randint lo hi size g
    { size := size
      insertion_sort := benchmark timeOf insertion_sortRef p.1 repeats
      merge_sort := benchmark timeOf merge_sortRef p.1 repeats
      list_sort := benchmark timeOf python_sortRef p.1 repeats
      sorted := benchmark timeOf python_sortedRef p.1 repeats } ::
      compareLoop timeOf randint lo hi repeats rest p.2

/-- `compare_sorting_algorithms` (src/task.py lines 73–103): substitute
the default size list for `None`, seed the pseudorandom generator once
(`rng = random.Random(seed)`), then run the per-size loop.  The generator
is abstract: `initRng` builds the deterministic initial state from the
seed and `randint` is the state-threading draw. -/
def compare_sorting_algorithms
    (timeOf : (Nat → Store → Nat × Store) → List ℤ → Nat → τ)
    (randint : σ → ℤ → ℤ → ℤ × σ) (initRng : ℤ → σ)
    (list_sizes : Option (List Nat)) (repeats : Nat) (seed : ℤ)
    (value_range : ℤ × ℤ) : List (SizeResult τ) :=
  let sizes := list_sizes.getD defaultListSizes
  let rng := initRng seed
  compareLoop timeOf randint value_range.1 value_range.2 repeats sizes rng

/-- The base datasets drawn by one run: a pure function of the generator,
the seed, the value range and the size list only. -/
def datasetsLoop (randint : σ → ℤ → ℤ → ℤ × σ) (lo hi : ℤ) :
    List Nat → σ → List (List ℤ)
  | [], _ => []
  | size :: rest, g =>
    let p := randList randint lo hi size g
    p.1 :: datasetsLoop randint lo hi rest p.2

def baseDatasets (randint : σ → ℤ → ℤ → ℤ × σ) (initRng : ℤ → σ)
    (seed : ℤ) (value_range : ℤ × ℤ) (sizes : List Nat) : List (List ℤ) :=
  datasetsLoop randint value_range.1 value_range.2 sizes (initRng seed)

end Compare

end Task

unseal Task.merge Task.merge_sort

namespace Task

section SortLemmas

variable {α : Type*} {κ : Type*} [LinearOrder κ] {k : α → κ}

theorem sortedK_nil : SortedK k ([] : List α) := List.Pairwise.nil

theorem insertFun_perm (k : α → κ) (x : α) (l : List α) :
    (insertFun k x l).Perm (x :: l) := by
  induction l with
  | nil => simp [insertFun]
  | cons y ys ih =>
    simp only [insertFun]
    split
    · exact List.Perm.refl _
    · exact (ih.cons y).trans (List.Perm.swap x y ys)

theorem length_insertFun (k : α → κ) (x : α) (l : List α) :
    (insertFun k x l).length = l.length + 1 :=
  ((insertFun_perm k x l).length_eq).trans (by simp)

theorem sorted_insertFun (x : α) {l : List α} (hl : SortedK k l) :
    SortedK k (insertFun k x l) := by
  induction l with
  | nil => simp [insertFun, SortedK]
  | cons y ys ih =>
    rw [SortedK, List.pairwise_cons] at hl
    simp only [insertFun]
    split
    · rename_i hxy
      rw [SortedK, List.pairwise_cons]
      refine ⟨fun b hb => ?_, List.pairwise_cons.mpr hl⟩
      rcases List.mem_cons.mp hb with rfl | hb
      · exact le_of_lt hxy
      · exact (le_of_lt hxy).trans (hl.1 b hb)
    · rename_i hxy
      rw [SortedK, List.pairwise_cons]
      refine ⟨fun b hb => ?_, ih hl.2⟩
      rcases List.mem_cons.mp ((insertFun_perm k x ys).mem_iff.mp hb) with rfl | hb
      · exact le_of_not_lt hxy
      · exact hl.1 b hb

theorem insertFun_append_last (x a : α) (l : List α) (ha : k x < k a) :
    insertFun k x (l ++ [a]) = insertFun k x l ++ [a] := by
  induction l with
  | nil => simp [insertFun, ha]
  | cons y ys ih =>
    simp only [List.cons_append, insertFun, List.append_eq]
    split
    · rfl
    · rw [ih, List.cons_append]

theorem insertFun_of_forall_not_lt {x : α} {l : List α}
    (h : ∀ y ∈ l, ¬ k x < k y) : insertFun k x l = l ++ [x] := by
  induction l with
  | nil => rfl
  | cons y ys ih =>
    simp only [insertFun, h y (List.mem_cons_self y ys), if_false]
    rw [ih fun z hz => h z (List.mem_cons_of_mem y hz)]
    rfl

theorem keyFilter_insertFun_ne (v : κ) (x : α) (l : List α) (hv : v ≠ k x) :
    keyFilter k v (insertFun k x l) = keyFilter k v l := by
  induction l with
  | nil => simp [insertFun, keyFilter, hv.symm]
  | cons y ys ih =>
    simp only [insertFun]
    split
    · simp [keyFilter, hv.symm]
    · simp only [keyFilter, List.filter_cons] at ih ⊢
      split <;> rw [ih]

theorem keyFilter_insertFun_eq (x : α) {l : List α} (hl : SortedK k l) :
    keyFilter k (k x) (insertFun k x l) = keyFilter k (k x) l ++ [x] := by
  simp only [keyFilter]
  induction l with
  | nil => simp [insertFun]
  | cons y ys ih =>
    rw [SortedK, List.pairwise_cons] at hl
    simp only [insertFun]
    split
    · rename_i hxy
      have hnil : List.filter (fun z => decide (k z = k x)) (y :: ys) = [] := by
        rw [List.filter_eq_nil_iff]
        intro b hb
        have hlt : k x < k b := by
          rcases List.mem_cons.mp hb with rfl | hb
          · exact hxy
          · exact hxy.trans_le (hl.1 b hb)
        simp [ne_of_gt hlt]
      rw [List.filter_cons_of_pos (by simp), hnil]
      rfl
    · rw [List.filter_cons, List.filter_cons]
      split
      · rw [ih hl.2]; rfl
      · exact ih hl.2

theorem foldl_insertFun_perm (k : α → κ) (l : List α) :
    ∀ acc, (l.foldl (fun a x => insertFun k x a) acc).Perm (acc ++ l) := by
  induction l with
  | nil => intro acc; simp
  | cons x l ih =>
    intro acc
    have h1 : (insertFun k x acc ++ l).Perm ((x :: acc) ++ l) :=
      (insertFun_perm k x acc).append_right l
    exact ((ih (insertFun k x acc)).trans h1).trans List.perm_middle.symm

theorem sorted_foldl_insertFun (l : List α) :
    ∀ acc, SortedK k acc → SortedK k (l.foldl (fun a x => insertFun k x a) acc) := by
  induction l with
  | nil => intro acc h; exact h
  | cons x l ih => intro acc h; exact ih _ (sorted_insertFun x h)

theorem keyFilter_foldl_insertFun (v : κ) (l : List α) :
    ∀ acc, SortedK k acc →
      keyFilter k v (l.foldl (fun a x => insertFun k x a) acc)
        = keyFilter k v acc ++ keyFilter k v l := by
  induction l with
  | nil => intro acc _; simp [keyFilter]
  | cons x l ih =>
    intro acc hacc
    rw [List.foldl_cons, ih _ (sorted_insertFun x hacc)]
    by_cases hv : v = k x
    · subst hv
      rw [keyFilter_insertFun_eq x hacc]
      have : keyFilter k (k x) (x :: l) = x :: keyFilter k (k x) l := by
        simp [keyFilter]
      rw [this, List.append_assoc, List.singleton_append]
    · rw [keyFilter_insertFun_ne v x acc hv]
      have hne : keyFilter k v (x :: l) = keyFilter k v l := by
        simp only [keyFilter]
        rw [List.filter_cons_of_neg (by simpa using Ne.symm hv)]
      rw [hne]

theorem insertionSortFun_perm (k : α → κ) (l : List α) :
    (insertionSortFun k l).Perm l :=
  foldl_insertFun_perm k l []

theorem sorted_insertionSortFun (k : α → κ) (l : List α) :
    SortedK k (insertionSortFun k l) :=
  sorted_foldl_insertFun l [] sortedK_nil

theorem keyFilter_insertionSortFun (k : α → κ) (v : κ) (l : List α) :
    keyFilter k v (insertionSortFun k l) = keyFilter k v l := by
  have h := keyFilter_foldl_insertFun (k := k) v l [] sortedK_nil
  simpa [insertionSortFun, keyFilter] using h

theorem length_insertionSortFun (k : α → κ) (l : List α) :
    (insertionSortFun k l).length = l.length :=
  (insertionSortFun_perm k l).length_eq

theorem getD_append_cons (l₁ : List α) (x d : α) (l₂ : List α) :
    (l₁ ++ x :: l₂).getD l₁.length d = x := by
  induction l₁ with
  | nil => simp
  | cons a t ih => simpa using ih

theorem set_append_cons_succ (l₁ : List α) (x y v : α) (l₂ : List α) :
    (l₁ ++ x :: y :: l₂).set (l₁.length + 1) v = l₁ ++ x :: v :: l₂ := by
  induction l₁ with
  | nil => simp
  | cons a t ih => simp [ih]

/-- The inner shifting loop, started just right of a sorted prefix `A`,
computes exactly the functional single insertion into `A` and leaves the
tail beyond the written slot untouched. -/
theorem insertKeyLoop_eq (key : α) (A : List α) :
    ∀ z B, SortedK k A →
      insertKeyLoop k key (A ++ z :: B) A.length = insertFun k key A ++ B := by
  induction A using List.reverseRecOn with
  | nil => intro z B _; simp [insertKeyLoop, insertFun]
  | append_singleton A' a ih =>
    intro z B hS
    have hSA' : SortedK k A' := (List.pairwise_append.mp hS).1
    have hlast : ∀ y ∈ A', k y ≤ k a := by
      intro y hy
      exact (List.pairwise_append.mp hS).2.2 y hy a (List.mem_singleton_self a)
    have hlen : (A' ++ [a]).length = A'.length + 1 := by simp
    have hshape : (A' ++ [a]) ++ z :: B = A' ++ a :: z :: B := by simp
    rw [hlen, hshape]
    rw [insertKeyLoop, getD_append_cons]
    by_cases hka : k key < k a
    · rw [if_pos hka, set_append_cons_succ, ih a (a :: B) hSA',
        insertFun_append_last key a A' hka]
      simp
    · rw [if_neg hka, set_append_cons_succ,
        insertFun_of_forall_not_lt (l := A' ++ [a]) ?_]
      · simp
      · intro y hy
        rcases List.mem_append.mp hy with hy | hy
        · exact not_lt.mpr ((hlast y hy).trans (not_lt.mp hka))
        · rw [List.mem_singleton.mp hy]; exact hka

theorem insertionSortFun_concat (k : α → κ) (l : List α) (x : α) :
    insertionSortFun k (l ++ [x]) = insertFun k x (insertionSortFun k l) := by
  simp [insertionSortFun]

/-- Loop invariant of `insertion_sort`: after the passes at indices
`1 .. i`, the list is the functionally sorted `(i+1)`-prefix followed by the
untouched tail. -/
theorem insertion_sort_inv (k : α → κ) (lst : List α) :
    ∀ i, i < lst.length →
      (List.range' 1 i).foldl (sortPass k) lst
        = insertionSortFun k (lst.take (i + 1)) ++ lst.drop (i + 1) := by
  intro i
  induction i with
  | zero =>
    intro hi
    cases lst with
    | nil => simp at hi
    | cons x rest => simp [insertionSortFun, insertFun]
  | succ i ih =>
    intro hi
    have hi' : i < lst.length := Nat.lt_of_succ_lt hi
    have hrange : List.range' 1 (i + 1) = List.range' 1 i ++ [1 + i] := by
      simpa using List.range'_1_concat 1 i
    rw [hrange, List.foldl_append, ih hi', List.foldl_cons, List.foldl_nil]
    set A := insertionSortFun k (lst.take (i + 1)) with hA
    have hAlen : A.length = i + 1 := by
      rw [hA, length_insertionSortFun, List.length_take]
      omega
    have hdrop : lst.drop (i + 1) = lst[i + 1] :: lst.drop (i + 2) :=
      List.drop_eq_getElem_cons hi
    have hidx : 1 + i = i + 1 := Nat.add_comm 1 i
    rw [hidx, hdrop]
    have hget : (A ++ lst[i + 1] :: lst.drop (i + 2))[i + 1]? = some lst[i + 1] := by
      rw [List.getElem?_append_right (by omega), hAlen]
      simp
    have hpass : sortPass k (A ++ lst[i + 1] :: lst.drop (i + 2)) (i + 1)
        = insertKeyLoop k lst[i + 1] (A ++ lst[i + 1] :: lst.drop (i + 2)) (i + 1) := by
      rw [sortPass, hget]
    rw [hpass]
    have hloop := insertKeyLoop_eq (k := k) lst[i + 1] A lst[i + 1] (lst.drop (i + 2))
      (by rw [hA]; exact sorted_insertionSortFun k _)
    rw [hAlen] at hloop
    rw [hloop]
    have htake : lst.take (i + 2) = lst.take (i + 1) ++ [lst[i + 1]] := by
      rw [List.take_succ]
      simp [List.getElem?_eq_getElem hi]
    rw [show i + 1 + 1 = i + 2 from rfl, htake, insertionSortFun_concat, hA]

/-- `insertion_sort` computes the functional insertion-sort model. -/
theorem insertion_sort_eq_fun (k : α → κ) (lst : List α) :
    insertion_sort k lst = insertionSortFun k lst := by
  cases lst with
  | nil => rfl
  | cons x rest =>
    have h := insertion_sort_inv k (x :: rest) rest.length (by simp)
    rw [insertion_sort] at *
    simp only [List.length_cons, Nat.add_sub_cancel] at *
    rw [h, List.take_of_length_le (by simp), List.drop_eq_nil_of_le (by simp),
      List.append_nil]

theorem sorted_insertion_sort (k : α → κ) (lst : List α) :
    SortedK k (insertion_sort k lst) := by
  rw [insertion_sort_eq_fun]; exact sorted_insertionSortFun k lst

theorem insertion_sort_perm (k : α → κ) (lst : List α) :
    (insertion_sort k lst).Perm lst := by
  rw [insertion_sort_eq_fun]; exact insertionSortFun_perm k lst

theorem keyFilter_insertion_sort (k : α → κ) (v : κ) (lst : List α) :
    keyFilter k v (insertion_sort k lst) = keyFilter k v lst := by
  rw [insertion_sort_eq_fun]; exact keyFilter_insertionSortFun k v lst

/-- Length ≤ 1 means the outer loop body never runs: the input comes back
unchanged. -/
theorem insertion_sort_short (k : α → κ) (lst : List α) (h : lst.length ≤ 1) :
    insertion_sort k lst = lst := by
  rw [insertion_sort]
  interval_cases hl : lst.length <;> simp

theorem merge_nil_left (k : α → κ) (r : List α) : merge k [] r = r := by
  rw [merge]

theorem merge_nil_right (k : α → κ) (l : List α) : merge k l [] = l := by
  cases l <;> simp [merge]

theorem merge_cons_cons (k : α → κ) (x y : α) (xs ys : List α) :
    merge k (x :: xs) (y :: ys)
      = if k x ≤ k y then x :: merge k xs (y :: ys)
        else y :: merge k (x :: xs) ys := by
  rw [merge]

theorem merge_perm (k : α → κ) (l r : List α) : (merge k l r).Perm (l ++ r) := by
  induction l generalizing r with
  | nil => simp [merge_nil_left]
  | cons x xs ihx =>
    induction r with
    | nil => simp [merge_nil_right]
    | cons y ys ihy =>
      rw [merge_cons_cons]
      split
      · exact (ihx (y :: ys)).cons x
      · exact (ihy.cons y).trans List.perm_middle.symm

theorem length_merge (k : α → κ) (l r : List α) :
    (merge k l r).length = l.length + r.length := by
  rw [(merge_perm k l r).length_eq, List.length_append]

theorem mem_merge {k : α → κ} {b : α} {l r : List α} :
    b ∈ merge k l r ↔ b ∈ l ++ r := (merge_perm k l r).mem_iff

theorem sorted_merge (k : α → κ) :
    ∀ (l r : List α), SortedK k l → SortedK k r → SortedK k (merge k l r) := by
  intro l
  induction l with
  | nil => intro r _ hr; rw [merge_nil_left]; exact hr
  | cons x xs ihx =>
    intro r
    induction r with
    | nil => intro hl _; rw [merge_nil_right]; exact hl
    | cons y ys ihy =>
      intro hl hr
      have hl' := List.pairwise_cons.mp hl
      have hr' := List.pairwise_cons.mp hr
      rw [merge_cons_cons]
      split
      · rename_i hxy
        rw [SortedK, List.pairwise_cons]
        refine ⟨fun b hb => ?_, ihx (y :: ys) hl'.2 hr⟩
        rcases List.mem_append.mp (mem_merge.mp hb) with hb | hb
        · exact hl'.1 b hb
        · rcases List.mem_cons.mp hb with rfl | hb
          · exact hxy
          · exact hxy.trans (hr'.1 b hb)
      · rename_i hxy
        rw [SortedK, List.pairwise_cons]
        refine ⟨fun b hb => ?_, ihy hl hr'.2⟩
        rcases List.mem_append.mp (mem_merge.mp hb) with hb | hb
        · rcases List.mem_cons.mp hb with rfl | hb
          · exact le_of_lt (not_le.mp hxy)
          · exact (le_of_lt (not_le.mp hxy)).trans (hl'.1 b hb)
        · exact hr'.1 b hb

theorem keyFilter_cons (k : α → κ) (v : κ) (x : α) (l : List α) :
    keyFilter k v (x :: l)
      = if k x = v then x :: keyFilter k v l else keyFilter k v l := by
  by_cases h : k x = v
  · simp [keyFilter, List.filter_cons, h]
  · simp [keyFilter, List.filter_cons, h]

theorem keyFilter_merge (k : α → κ) (v : κ) :
    ∀ (l r : List α), SortedK k l → SortedK k r →
      keyFilter k v (merge k l r) = keyFilter k v l ++ keyFilter k v r := by
  intro l
  induction l with
  | nil => intro r _ _; rw [merge_nil_left]; simp [keyFilter]
  | cons x xs ihx =>
    intro r
    induction r with
    | nil => intro _ _; rw [merge_nil_right]; simp [keyFilter]
    | cons y ys ihy =>
      intro hl hr
      have hl' := List.pairwise_cons.mp hl
      have hr' := List.pairwise_cons.mp hr
      rw [merge_cons_cons]
      split
      · rename_i hxy
        rw [keyFilter_cons, keyFilter_cons, ihx (y :: ys) hl'.2 hr]
        split <;> simp
      · rename_i hxy
        have hyx : k y < k x := not_le.mp hxy
        rw [keyFilter_cons, ihy hl hr'.2]
        by_cases hyv : k y = v
        · have hnil : keyFilter k v (x :: xs) = [] := by
            rw [keyFilter, List.filter_eq_nil_iff]
            intro b hb
            have hlt : k y < k b := by
              rcases List.mem_cons.mp hb with rfl | hb
              · exact hyx
              · exact hyx.trans_le (hl'.1 b hb)
            simp [hyv ▸ (ne_of_gt hlt)]
          rw [if_pos hyv, hnil,
            show keyFilter k v (y :: ys) = y :: keyFilter k v ys from by
              rw [keyFilter_cons, if_pos hyv]]
          simp
        · rw [if_neg hyv,
            show keyFilter k v (y :: ys) = keyFilter k v ys from by
              rw [keyFilter_cons, if_neg hyv]]

theorem merge_sort_short (k : α → κ) (arr : List α) (h : arr.length ≤ 1) :
    merge_sort k arr = arr := by
  rw [merge_sort, if_pos h]

theorem merge_sort_rec (k : α → κ) (arr : List α) (h : ¬ arr.length ≤ 1) :
    merge_sort k arr
      = merge k (merge_sort k (arr.take (arr.length / 2)))
          (merge_sort k (arr.drop (arr.length / 2))) := by
  rw [merge_sort, if_neg h]

theorem length_take_half_lt {arr : List α} (h : ¬ arr.length ≤ 1) :
    (arr.take (arr.length / 2)).length < arr.length := by
  rw [List.length_take]
  omega

theorem length_drop_half_lt {arr : List α} (h : ¬ arr.length ≤ 1) :
    (arr.drop (arr.length / 2)).length < arr.length := by
  rw [List.length_drop]
  omega

theorem sorted_merge_sort (k : α → κ) (arr : List α) :
    SortedK k (merge_sort k arr) := by
  generalize hn : arr.length = n
  induction n using Nat.strong_induction_on generalizing arr with
  | _ n ih =>
    by_cases h : arr.length ≤ 1
    · rw [merge_sort_short k arr h]
      match arr, h with
      | [], _ => exact List.Pairwise.nil
      | [a], _ => simp [SortedK]
    · rw [merge_sort_rec k arr h]
      exact sorted_merge k _ _
        (ih _ (hn ▸ length_take_half_lt h) _ rfl)
        (ih _ (hn ▸ length_drop_half_lt h) _ rfl)

theorem merge_sort_perm (k : α → κ) (arr : List α) :
    (merge_sort k arr).Perm arr := by
  generalize hn : arr.length = n
  induction n using Nat.strong_induction_on generalizing arr with
  | _ n ih =>
    by_cases h : arr.length ≤ 1
    · rw [merge_sort_short k arr h]
    · rw [merge_sort_rec k arr h]
      have hp := merge_perm k (merge_sort k (arr.take (arr.length / 2)))
        (merge_sort k (arr.drop (arr.length / 2)))
      have h1 := ih (arr.take (arr.length / 2)).length
        (by rw [← hn]; exact length_take_half_lt h) _ rfl
      have h2 := ih (arr.drop (arr.length / 2)).length
        (by rw [← hn]; exact length_drop_half_lt h) _ rfl
      exact (hp.trans (h1.append h2)).trans
        (by rw [List.take_append_drop])

theorem length_merge_sort (k : α → κ) (arr : List α) :
    (merge_sort k arr).length = arr.length :=
  (merge_sort_perm k arr).length_eq

theorem keyFilter_merge_sort (k : α → κ) (v : κ) (arr : List α) :
    keyFilter k v (merge_sort k arr) = keyFilter k v arr := by
  generalize hn : arr.length = n
  induction n using Nat.strong_induction_on generalizing arr with
  | _ n ih =>
    by_cases h : arr.length ≤ 1
    · rw [merge_sort_short k arr h]
    · rw [merge_sort_rec k arr h,
        keyFilter_merge k v _ _ (sorted_merge_sort k _) (sorted_merge_sort k _),
        ih (arr.take (arr.length / 2)).length
          (by rw [← hn]; exact length_take_half_lt h) _ rfl,
        ih (arr.drop (arr.length / 2)).length
          (by rw [← hn]; exact length_drop_half_lt h) _ rfl]
      simp only [keyFilter]
      rw [← List.filter_append, List.take_append_drop]

end SortLemmas

section FuelLemmas

variable {α : Type*} {κ : Type*} [LinearOrder κ]

theorem insertKeyLoopFuel_eq (k : α → κ) (key : α) :
    ∀ j fuel lst, j < fuel →
      insertKeyLoopFuel k key fuel lst j = some (insertKeyLoop k key lst j) := by
  intro j
  induction j with
  | zero =>
    intro fuel lst h
    match fuel, h with
    | _ + 1, _ => rfl
  | succ j ih =>
    intro fuel lst h
    match fuel, h with
    | fuel + 1, h =>
      rw [insertKeyLoopFuel, insertKeyLoop]
      split
      · exact ih fuel _ (Nat.lt_of_succ_lt_succ h)
      · rfl

theorem mergeFuel_eq (k : α → κ) :
    ∀ fuel (l r : List α), l.length + r.length < fuel →
      mergeFuel k fuel l r = some (merge k l r) := by
  intro fuel
  induction fuel with
  | zero => intro l r h; omega
  | succ fuel ih =>
    intro l r h
    match l, r with
    | [], right => rw [mergeFuel, merge_nil_left]
    | x :: xs, [] => simp [mergeFuel, merge_nil_right]
    | x :: xs, y :: ys =>
      rw [mergeFuel, merge_cons_cons]
      simp only [List.length_cons] at h
      split
      · rw [ih xs (y :: ys) (by simp; omega)]
        rfl
      · rw [ih (x :: xs) ys (by simp; omega)]
        rfl

theorem merge_sortFuel_eq (k : α → κ) :
    ∀ fuel (arr : List α), arr.length < fuel →
      merge_sortFuel k fuel arr = some (merge_sort k arr) := by
  intro fuel
  induction fuel with
  | zero => intro arr h; omega
  | succ fuel ih =>
    intro arr h
    rw [merge_sortFuel]
    by_cases hs : arr.length ≤ 1
    · rw [if_pos hs, merge_sort_short k arr hs]
    · rw [if_neg hs,
        ih (arr.take (arr.length / 2))
          (lt_of_lt_of_le (length_take_half_lt hs) (Nat.lt_succ_iff.mp h)),
        ih (arr.drop (arr.length / 2))
          (lt_of_lt_of_le (length_drop_half_lt hs) (Nat.lt_succ_iff.mp h)),
        merge_sort_rec k arr hs]

end FuelLemmas

section StoreLemmas

theorem readCell_write_ne (s : Store) (r : Nat) (v : List ℤ) (i : Nat)
    (h : i ≠ r) : readCell (writeCell s r v) i = readCell s i := by
  rw [readCell, writeCell, readCell, List.getD_eq_getElem?_getD,
    List.getD_eq_getElem?_getD, List.getElem?_set_ne (fun hc => h hc.symm)]

theorem readCell_write_self (s : Store) (r : Nat) (v : List ℤ)
    (h : r < s.length) : readCell (writeCell s r v) r = v := by
  rw [readCell, writeCell, List.getD_eq_getElem?_getD,
    List.getElem?_set_self (by omega)]
  simp [h]

theorem readCell_append_lt (s t : Store) (i : Nat) (h : i < s.length) :
    readCell (s ++ t) i = readCell s i := by
  rw [readCell, readCell, List.getD_eq_getElem?_getD,
    List.getD_eq_getElem?_getD, List.getElem?_append_left h]

theorem readCell_append_self (s : Store) (v : List ℤ) :
    readCell (s ++ [v]) s.length = v :=
  getD_append_cons s v [] []

theorem writeCell_read_self (s : Store) : ∀ r, r < s.length →
    writeCell s r (readCell s r) = s := by
  induction s with
  | nil => intro r h; simp at h
  | cons a t ih =>
    intro r h
    cases r with
    | zero => simp [writeCell, readCell]
    | succ r =>
      have ht := ih r (by simpa using Nat.lt_of_succ_lt_succ h)
      simp only [writeCell, readCell] at ht ⊢
      simp only [List.getD_cons_succ, List.set_cons_succ, ht]

theorem localFn_insertion_sortRef : LocalFn insertion_sortRef := by
  intro r s i _ hir
  exact readCell_write_ne s r _ i hir

theorem growFn_insertion_sortRef : GrowFn insertion_sortRef := by
  intro r s
  simp [insertion_sortRef, writeCell]

theorem localFn_merge_sortRef : LocalFn merge_sortRef := by
  intro r s i hi _
  rw [merge_sortRef]
  split
  · rfl
  · exact readCell_append_lt s _ i hi

theorem growFn_merge_sortRef : GrowFn merge_sortRef := by
  intro r s
  rw [merge_sortRef]
  split
  · exact le_refl _
  · simp [allocCell]

theorem localFn_python_sortRef : LocalFn python_sortRef := by
  intro r s i _ hir
  exact readCell_write_ne s r _ i hir

theorem growFn_python_sortRef : GrowFn python_sortRef := by
  intro r s
  simp [python_sortRef, writeCell]

theorem localFn_python_sortedRef : LocalFn python_sortedRef := by
  intro r s i hi _
  exact readCell_append_lt s _ i hi

theorem growFn_python_sortedRef : GrowFn python_sortedRef := by
  intro r s
  simp [python_sortedRef, allocCell]

/-- Core frame lemma for `benchmark`: a local, non-shrinking function
called `repeats` times on fresh copies never changes the `data` cell. -/
theorem benchmarkRef_preserves (f : Nat → Store → Nat × Store)
    (hf : LocalFn f) (hg : GrowFn f) :
    ∀ (n : Nat) (r : Nat) (s : Store), r < s.length →
      readCell (benchmarkRef f r n s) r = readCell s r := by
  intro n
  induction n with
  | zero => intro r s _; rfl
  | succ n ih =>
    intro r s hr
    rw [benchmarkRef]
    have hs₁ : readCell ((allocCell s (readCell s r)).1) r = readCell s r :=
      readCell_append_lt s _ r hr
    have hlen₁ : (allocCell s (readCell s r)).1.length = s.length + 1 := by
      simp [allocCell]
    have hne : r ≠ (allocCell s (readCell s r)).2 := by
      rw [allocCell]
      omega
    have hs₂ : readCell (f (allocCell s (readCell s r)).2
          (allocCell s (readCell s r)).1).2 r
        = readCell s r := by
      rw [hf _ _ r (by omega) hne, hs₁]
    rw [ih r _ (by
      calc r < s.length + 1 := by omega
        _ = (allocCell s (readCell s r)).1.length := hlen₁.symm
        _ ≤ _ := hg _ _)]
    exact hs₂

end StoreLemmas

section CompareLemmas

variable {σ : Type*} {τ : Type*}

theorem length_compareLoop
    (timeOf : (Nat → Store → Nat × Store) → List ℤ → Nat → τ)
    (randint : σ → ℤ → ℤ → ℤ × σ) (lo hi : ℤ) (repeats : Nat) :
    ∀ (sizes : List Nat) (g : σ),
      (compareLoop timeOf randint lo hi repeats sizes g).length
        = sizes.length := by
  intro sizes
  induction sizes with
  | nil => intro g; rfl
  | cons size rest ih =>
    intro g
    rw [compareLoop]
    simp [ih]

theorem length_datasetsLoop (randint : σ → ℤ → ℤ → ℤ × σ) (lo hi : ℤ) :
    ∀ (sizes : List Nat) (g : σ),
      (datasetsLoop randint lo hi sizes g).length = sizes.length := by
  intro sizes
  induction sizes with
  | nil => intro g; rfl
  | cons size rest ih =>
    intro g
    rw [datasetsLoop]
    simp [ih]

/-- The `i`-th Result Entry of the per-size loop: the `i`-th size together
with the four benchmark timings, every one taken on the `i`-th base
dataset. -/
theorem compareLoop_getElem
    (timeOf : (Nat → Store → Nat × Store) → List ℤ → Nat → τ)
    (randint : σ → ℤ → ℤ → ℤ × σ) (lo hi : ℤ) (repeats : Nat) :
    ∀ (sizes : List Nat) (g : σ) (i : Nat) (sz : Nat) (d : List ℤ),
      sizes[i]? = some sz →
      (datasetsLoop randint lo hi sizes g)[i]? = some d →
      (compareLoop timeOf randint lo hi repeats sizes g)[i]?
        = some
          { size := sz
            insertion_sort := benchmark timeOf insertion_sortRef d repeats
            merge_sort := benchmark timeOf merge_sortRef d repeats
            list_sort := benchmark timeOf python_sortRef d repeats
            sorted := benchmark timeOf python_sortedRef d repeats } := by
  intro sizes
  induction sizes with
  | nil => intro g i sz d hsz _; simp at hsz
  | cons size rest ih =>
    intro g i sz d hsz hd
    rw [datasetsLoop] at hd
    rw [compareLoop]
    cases i with
    | zero =>
      simp only [List.getElem?_cons_zero, Option.some_inj] at hsz hd ⊢
      subst hsz
      subst hd
      rfl
    | succ i =>
      simp only [List.getElem?_cons_succ] at hsz hd ⊢
      exact ih _ i sz d hsz hd

theorem randList_bounds (randint : σ → ℤ → ℤ → ℤ × σ) (lo hi : ℤ)
    (hcon : ∀ g a b, a ≤ b → a ≤ (randint g a b).1 ∧ (randint g a b).1 ≤ b)
    (hab : lo ≤ hi) :
    ∀ (n : Nat) (g : σ) (v : ℤ),
      v ∈ (randList randint lo hi n g).1 → lo ≤ v ∧ v ≤ hi := by
  intro n
  induction n with
  | zero => intro g v hv; simp [randList] at hv
  | succ n ih =>
    intro g v hv
    rw [randList] at hv
    simp only [List.mem_cons] at hv
    rcases hv with rfl | hv
    · exact hcon g lo hi hab
    · exact ih _ v hv

theorem datasetsLoop_bounds (randint : σ → ℤ → ℤ → ℤ × σ) (lo hi : ℤ)
    (hcon : ∀ g a b, a ≤ b → a ≤ (randint g a b).1 ∧ (randint g a b).1 ≤ b)
    (hab : lo ≤ hi) :
    ∀ (sizes : List Nat) (g : σ) (d : List ℤ),
      d ∈ datasetsLoop randint lo hi sizes g →
      ∀ v ∈ d, lo ≤ v ∧ v ≤ hi := by
  intro sizes
  induction sizes with
  | nil => intro g d hd; simp [datasetsLoop] at hd
  | cons size rest ih =>
    intro g d hd
    rw [datasetsLoop] at hd
    simp only [List.mem_cons] at hd
    rcases hd with rfl | hd
    · intro v hv
      exact randList_bounds randint lo hi hcon hab size g v hv
    · exact ih _ d hd

end CompareLemmas

/-! ### Claim theorems -/

theorem getLast?_eq_getLastD (l : List ℚ) (h : l ≠ []) :
    l.getLast? = some (l.getLastD 0) := by
  obtain ⟨x, hx⟩ := Option.isSome_iff_exists.mp (List.getLast?_isSome.mpr h)
  rw [List.getLastD_eq_getLast?, hx]
  rfl

/-- C1: For every finite list of orderable values, `insertion_sort` and
`merge_sort` each produce a list in non-decreasing order that is a
permutation of the input: equal length and the multiset of elements
preserved. -/
theorem sorts_produce_sorted_permutation {α : Type*} [LinearOrder α]
    (l : List α) :
    (SortedK id (insertion_sort id l)
      ∧ (insertion_sort id l).Perm l
      ∧ (insertion_sort id l).length = l.length
      ∧ (↑(insertion_sort id l) : Multiset α) = ↑l)
    ∧ (SortedK id (merge_sort id l)
      ∧ (merge_sort id l).Perm l
      ∧ (merge_sort id l).length = l.length
      ∧ (↑(merge_sort id l) : Multiset α) = ↑l) :=
  ⟨⟨sorted_insertion_sort id l, insertion_sort_perm id l,
      (insertion_sort_perm id l).length_eq,
      Multiset.coe_eq_coe.mpr (insertion_sort_perm id l)⟩,
    ⟨sorted_merge_sort id l, merge_sort_perm id l,
      length_merge_sort id l,
      Multiset.coe_eq_coe.mpr (merge_sort_perm id l)⟩⟩

/-- C2: On two already-sorted lists, `merge` returns a sorted list of
length `len(a) + len(b)`; on a tie between the current left and right
elements the left one is taken first, and once one side is exhausted the
remainder of the other is appended unchanged. -/
theorem merge_contract {α : Type*} {κ : Type*} [LinearOrder κ] (k : α → κ)
    (a b : List α) (ha : SortedK k a) (hb : SortedK k b) :
    SortedK k (merge k a b)
    ∧ (merge k a b).length = a.length + b.length
    ∧ (∀ x xs y ys, a = x :: xs → b = y :: ys → k x = k y →
        merge k a b = x :: merge k xs b)
    ∧ merge k a [] = a ∧ merge k [] b = b := by
  refine ⟨sorted_merge k a b ha hb, length_merge k a b, ?_,
    merge_nil_right k a, merge_nil_left k b⟩
  rintro x xs y ys rfl rfl hxy
  rw [merge_cons_cons, if_pos (le_of_eq hxy)]

theorem merge_contract_witness :
    SortedK (id : ℤ → ℤ) [1, 2] ∧ SortedK (id : ℤ → ℤ) [1, 3]
    ∧ (SortedK (id : ℤ → ℤ) (merge id [1, 2] [1, 3])
      ∧ (merge (id : ℤ → ℤ) [1, 2] [1, 3]).length
          = ([1, 2] : List ℤ).length + ([1, 3] : List ℤ).length
      ∧ (∀ x xs y ys, ([1, 2] : List ℤ) = x :: xs →
          ([1, 3] : List ℤ) = y :: ys → id x = id y →
          merge id [1, 2] [1, 3] = x :: merge id xs [1, 3])
      ∧ merge (id : ℤ → ℤ) [1, 2] [] = [1, 2]
      ∧ merge (id : ℤ → ℤ) [] [1, 3] = [1, 3]) :=
  ⟨by decide, by decide, merge_contract id [1, 2] [1, 3] (by decide) (by decide)⟩

/-- C3: Both `insertion_sort` and `merge_sort` are stable: elements with
equal keys keep their relative input order (the `keyFilter` at every key
value is preserved); in particular the two-element input
`[(1, 'a'), (1, 'b')]` keyed by first component is returned in input
order by both sorts. -/
theorem sorts_stable {α : Type*} {κ : Type*} [LinearOrder κ]
    (k : α → κ) (l : List α) (v : κ) :
    (keyFilter k v (insertion_sort k l) = keyFilter k v l
      ∧ keyFilter k v (merge_sort k l) = keyFilter k v l)
    ∧ insertion_sort Prod.fst [((1 : ℤ), 'a'), (1, 'b')] = [(1, 'a'), (1, 'b')]
    ∧ merge_sort Prod.fst [((1 : ℤ), 'a'), (1, 'b')] = [(1, 'a'), (1, 'b')] :=
  ⟨⟨keyFilter_insertion_sort k v l, keyFilter_merge_sort k v l⟩,
    by decide, by decide⟩

/-- C4: `_scale_theoretical_curve` returns the theoretical sequence
unchanged if either input is empty or its last element is zero; otherwise
it multiplies every element by the single factor
`reference[-1] / values[-1]`, so the result's last element equals the
reference's last element.  In particular `scale [] [1,2,3] = []` and the
last element of `scale [0,0,4] [1,2,10]` is `10`. -/
theorem scale_theoretical_curve_spec (values reference : List ℚ) :
    ((values = [] ∨ reference = [] ∨ values.getLastD 0 = 0) →
      _scale_theoretical_curve values reference = values)
    ∧ (values ≠ [] → reference ≠ [] → values.getLastD 0 ≠ 0 →
      _scale_theoretical_curve values reference
          = values.map
            (fun value => value * (reference.getLastD 0 / values.getLastD 0))
        ∧ (_scale_theoretical_curve values reference).getLast?
            = reference.getLast?)
    ∧ _scale_theoretical_curve [] [1, 2, 3] = []
    ∧ (_scale_theoretical_curve [0, 0, 4] [1, 2, 10]).getLast? = some 10 := by
  refine ⟨fun h => by rw [_scale_theoretical_curve, if_pos h], ?_, by decide, ?_⟩
  · intro hv hr h0
    have hguard : ¬ (values = [] ∨ reference = [] ∨ values.getLastD 0 = 0) := by
      push_neg
      exact ⟨hv, hr, h0⟩
    have hmap : _scale_theoretical_curve values reference
        = values.map
          (fun value => value * (reference.getLastD 0 / values.getLastD 0)) := by
      rw [_scale_theoretical_curve, if_neg hguard]
    refine ⟨hmap, ?_⟩
    rw [hmap, List.getLast?_map, getLast?_eq_getLastD values hv,
      getLast?_eq_getLastD reference hr]
    simp only [Option.map_some']
    rw [mul_div_assoc', mul_comm, mul_div_cancel_right₀ _ h0]
  · rw [_scale_theoretical_curve, if_neg (by simp [List.getLastD])]
    simp only [List.getLastD, List.map_cons, List.map_nil]
    norm_num

theorem scale_theoretical_curve_witness :
    ([1, 2] : List ℚ) ≠ [] ∧ ([3, 4] : List ℚ) ≠ []
    ∧ ([1, 2] : List ℚ).getLastD 0 ≠ 0
    ∧ (_scale_theoretical_curve [1, 2] [3, 4]
        = ([1, 2] : List ℚ).map
          (fun value =>
            value * (([3, 4] : List ℚ).getLastD 0 / ([1, 2] : List ℚ).getLastD 0))
      ∧ (_scale_theoretical_curve [1, 2] [3, 4]).getLast?
          = ([3, 4] : List ℚ).getLast?) :=
  ⟨by decide, by decide, by decide,
    (scale_theoretical_curve_spec [1, 2] [3, 4]).2.1 (by decide) (by decide) (by decide)⟩

/-- C5: `benchmark` never mutates its `data` argument: every one of the
`repeats` invocations of the candidate function runs on a fresh copy of
`data`, so the `data` cell is unchanged after the call — for any function
that only touches its own argument (and in particular for all four sorts
of the script). -/
theorem benchmark_never_mutates_data :
    (∀ (f : Nat → Store → Nat × Store), LocalFn f → GrowFn f →
      ∀ (data repeats : Nat) (s : Store), data < s.length →
        readCell (benchmarkRef f data repeats s) data = readCell s data)
    ∧ (∀ (data repeats : Nat) (s : Store), data < s.length →
        readCell (benchmarkRef insertion_sortRef data repeats s) data
          = readCell s data)
    ∧ (∀ (data repeats : Nat) (s : Store), data < s.length →
        readCell (benchmarkRef merge_sortRef data repeats s) data
          = readCell s data)
    ∧ (∀ (data repeats : Nat) (s : Store), data < s.length →
        readCell (benchmarkRef python_sortRef data repeats s) data
          = readCell s data)
    ∧ (∀ (data repeats : Nat) (s : Store), data < s.length →
        readCell (benchmarkRef python_sortedRef data repeats s) data
          = readCell s data) :=
  ⟨fun f hf hg data repeats s h => benchmarkRef_preserves f hf hg repeats data s h,
   fun data repeats s h => benchmarkRef_preserves _
     localFn_insertion_sortRef growFn_insertion_sortRef repeats data s h,
   fun data repeats s h => benchmarkRef_preserves _
     localFn_merge_sortRef growFn_merge_sortRef repeats data s h,
   fun data repeats s h => benchmarkRef_preserves _
     localFn_python_sortRef growFn_python_sortRef repeats data s h,
   fun data repeats s h => benchmarkRef_preserves _
     localFn_python_sortedRef growFn_python_sortedRef repeats data s h⟩

theorem benchmark_never_mutates_data_witness :
    (0 : Nat) < ([[3, 1, 2]] : Store).length
    ∧ readCell (benchmarkRef insertion_sortRef 0 2 [[3, 1, 2]]) 0
        = readCell [[3, 1, 2]] 0 :=
  ⟨by decide, benchmark_never_mutates_data.2.1 0 2 [[3, 1, 2]] (by decide)⟩

/-- C6: dataset generation is deterministic: the generator is seeded once
at the start of the run (`baseDatasets` threads one state built from the
seed), so any two runs — even with different timers and repeat counts —
draw exactly the same base dataset per size, and within one run all four
algorithms are benchmarked against that same dataset. -/
theorem compare_datasets_deterministic {σ τ₁ τ₂ : Type*}
    (randint : σ → ℤ → ℤ → ℤ × σ) (initRng : ℤ → σ)
    (t₁ : (Nat → Store → Nat × Store) → List ℤ → Nat → τ₁)
    (t₂ : (Nat → Store → Nat × Store) → List ℤ → Nat → τ₂)
    (rep₁ rep₂ : Nat) (seed : ℤ) (value_range : ℤ × ℤ)
    (sizes : List Nat) (i sz : Nat) (d : List ℤ)
    (hsz : sizes[i]? = some sz)
    (hd : (baseDatasets randint initRng seed value_range sizes)[i]? = some d) :
    (compare_sorting_algorithms t₁ randint initRng (some sizes) rep₁ seed
        value_range)[i]?
      = some
        { size := sz
          insertion_sort := benchmark t₁ insertion_sortRef d rep₁
          merge_sort := benchmark t₁ merge_sortRef d rep₁
          list_sort := benchmark t₁ python_sortRef d rep₁
          sorted := benchmark t₁ python_sortedRef d rep₁ }
    ∧ (compare_sorting_algorithms t₂ randint initRng (some sizes) rep₂ seed
        value_range)[i]?
      = some
        { size := sz
          insertion_sort := benchmark t₂ insertion_sortRef d rep₂
          merge_sort := benchmark t₂ merge_sortRef d rep₂
          list_sort := benchmark t₂ python_sortRef d rep₂
          sorted := benchmark t₂ python_sortedRef d rep₂ } :=
  ⟨compareLoop_getElem t₁ randint value_range.1 value_range.2 rep₁ sizes
      (initRng seed) i sz d hsz hd,
    compareLoop_getElem t₂ randint value_range.1 value_range.2 rep₂ sizes
      (initRng seed) i sz d hsz hd⟩

theorem compare_datasets_deterministic_witness :
    (([1] : List Nat)[0]? = some 1)
    ∧ ((baseDatasets (fun (g : ℤ) (a _ : ℤ) => (a, g)) (fun s => s) 0 (5, 9)
        [1])[0]? = some [5])
    ∧ ((compare_sorting_algorithms (fun _ _ _ => (0 : Nat))
          (fun (g : ℤ) (a _ : ℤ) => (a, g)) (fun s => s) (some [1]) 3 0
          (5, 9))[0]?
        = some
          { size := 1
            insertion_sort := benchmark (fun _ _ _ => (0 : Nat))
              insertion_sortRef [5] 3
            merge_sort := benchmark (fun _ _ _ => (0 : Nat)) merge_sortRef [5] 3
            list_sort := benchmark (fun _ _ _ => (0 : Nat)) python_sortRef [5] 3
            sorted := benchmark (fun _ _ _ => (0 : Nat))
              python_sortedRef [5] 3 }
      ∧ (compare_sorting_algorithms (fun _ _ _ => (0 : Nat))
          (fun (g : ℤ) (a _ : ℤ) => (a, g)) (fun s => s) (some [1]) 4 0
          (5, 9))[0]?
        = some
          { size := 1
            insertion_sort := benchmark (fun _ _ _ => (0 : Nat))
              insertion_sortRef [5] 4
            merge_sort := benchmark (fun _ _ _ => (0 : Nat)) merge_sortRef [5] 4
            list_sort := benchmark (fun _ _ _ => (0 : Nat)) python_sortRef [5] 4
            sorted := benchmark (fun _ _ _ => (0 : Nat))
              python_sortedRef [5] 4 }) :=
  ⟨by decide, by decide,
    compare_datasets_deterministic (fun (g : ℤ) (a _ : ℤ) => (a, g))
      (fun s => s) (fun _ _ _ => (0 : Nat)) (fun _ _ _ => (0 : Nat)) 3 4 0
      (5, 9) [1] 0 1 [5] (by decide) (by decide)⟩

/-- C7: `insertion_sort` sorts its mutable input in place — it returns the
very reference it was given, whose cell afterwards holds the
non-decreasing rearrangement of the old contents — and for input of
length ≤ 1 the loop body never runs: the value is returned unchanged and
the store is untouched. -/
theorem insertion_sort_in_place :
    (∀ (r : Nat) (s : Store), (insertion_sortRef r s).1 = r)
    ∧ (∀ (r : Nat) (s : Store), r < s.length →
        readCell (insertion_sortRef r s).2 r = insertion_sort id (readCell s r))
    ∧ (∀ l : List ℤ, SortedK id (insertion_sort id l)
        ∧ (insertion_sort id l).Perm l)
    ∧ (∀ l : List ℤ, l.length ≤ 1 → insertion_sort id l = l)
    ∧ (∀ (r : Nat) (s : Store), r < s.length → (readCell s r).length ≤ 1 →
        (insertion_sortRef r s).2 = s) := by
  refine ⟨fun r s => rfl, fun r s h => readCell_write_self s r _ h,
    fun l => ⟨sorted_insertion_sort id l, insertion_sort_perm id l⟩,
    fun l h => insertion_sort_short id l h, fun r s h hlen => ?_⟩
  show writeCell s r (insertion_sort id (readCell s r)) = s
  rw [insertion_sort_short id _ hlen, writeCell_read_self s r h]

theorem insertion_sort_in_place_witness :
    (0 : Nat) < ([[3, 1, 2]] : Store).length
    ∧ readCell (insertion_sortRef 0 [[3, 1, 2]]).2 0
        = insertion_sort id (readCell [[3, 1, 2]] 0) :=
  ⟨by decide, insertion_sort_in_place.2.1 0 [[3, 1, 2]] (by decide)⟩

/-- C8: `merge_sort` never mutates an existing cell; length ≤ 1 inputs are
returned as-is (same reference, no copy), longer inputs yield a fresh
reference holding a new non-decreasing sequence; the split point is
`len // 2`, so the left half's share is less than or equal to the right
half's. -/
theorem merge_sort_no_mutation :
    (∀ (r : Nat) (s : Store) (i : Nat), i < s.length →
        readCell (merge_sortRef r s).2 i = readCell s i)
    ∧ (∀ (r : Nat) (s : Store), (readCell s r).length ≤ 1 →
        merge_sortRef r s = (r, s))
    ∧ (∀ (r : Nat) (s : Store), ¬ (readCell s r).length ≤ 1 →
        (merge_sortRef r s).1 = s.length
        ∧ readCell (merge_sortRef r s).2 (merge_sortRef r s).1
            = merge_sort id (readCell s r))
    ∧ (∀ l : List ℤ, SortedK id (merge_sort id l) ∧ (merge_sort id l).Perm l)
    ∧ (∀ l : List ℤ, l.length ≤ 1 → merge_sort id l = l)
    ∧ (∀ l : List ℤ, ¬ l.length ≤ 1 →
        merge_sort id l
            = merge id (merge_sort id (l.take (l.length / 2)))
                (merge_sort id (l.drop (l.length / 2)))
        ∧ (l.take (l.length / 2)).length ≤ (l.drop (l.length / 2)).length) := by
  refine ⟨fun r s i hi => ?_, fun r s h => ?_, fun r s h => ?_,
    fun l => ⟨sorted_merge_sort id l, merge_sort_perm id l⟩,
    fun l h => merge_sort_short id l h,
    fun l h => ⟨merge_sort_rec id l h, ?_⟩⟩
  · rw [merge_sortRef]
    split
    · rfl
    · exact readCell_append_lt s _ i hi
  · rw [merge_sortRef, if_pos h]
  · rw [merge_sortRef, if_neg h]
    exact ⟨rfl, readCell_append_self s _⟩
  · rw [List.length_take, List.length_drop]
    omega

theorem merge_sort_no_mutation_witness :
    ¬ (readCell [[3, 1, 2]] 0).length ≤ 1
    ∧ ((merge_sortRef 0 [[3, 1, 2]]).1 = ([[3, 1, 2]] : Store).length
      ∧ readCell (merge_sortRef 0 [[3, 1, 2]]).2 (merge_sortRef 0 [[3, 1, 2]]).1
          = merge_sort id (readCell [[3, 1, 2]] 0)) :=
  ⟨by decide, merge_sort_no_mutation.2.2.1 0 [[3, 1, 2]] (by decide)⟩

/-- C9: `compare_sorting_algorithms` returns one Result Entry per
requested size in the order of the size list, each holding the size plus
one timing per algorithm (the four fields of `SizeResult`); the default
size list is `[10, 100, 1000, 5000]`, the default repeat count is `5`,
and — given `randint`'s contract of drawing from the closed interval —
every generated dataset value lies in `[lo, hi]`, both bounds
included. -/
theorem compare_results_shape {σ τ : Type*}
    (timeOf : (Nat → Store → Nat × Store) → List ℤ → Nat → τ)
    (randint : σ → ℤ → ℤ → ℤ × σ) (initRng : ℤ → σ)
    (repeats : Nat) (seed : ℤ) (lo hi : ℤ) (sizes : List Nat)
    (hcon : ∀ g a b, a ≤ b → a ≤ (randint g a b).1 ∧ (randint g a b).1 ≤ b)
    (hrange : lo ≤ hi) :
    (compare_sorting_algorithms timeOf randint initRng (some sizes) repeats
        seed (lo, hi)).length = sizes.length
    ∧ (∀ (i sz : Nat) (d : List ℤ), sizes[i]? = some sz →
        (baseDatasets randint initRng seed (lo, hi) sizes)[i]? = some d →
        (compare_sorting_algorithms timeOf randint initRng (some sizes)
            repeats seed (lo, hi))[i]?
          = some
            { size := sz
              insertion_sort := benchmark timeOf insertion_sortRef d repeats
              merge_sort := benchmark timeOf merge_sortRef d repeats
              list_sort := benchmark timeOf python_sortRef d repeats
              sorted := benchmark timeOf python_sortedRef d repeats })
    ∧ (∀ d ∈ baseDatasets randint initRng seed (lo, hi) sizes,
        ∀ v ∈ d, lo ≤ v ∧ v ≤ hi)
    ∧ compare_sorting_algorithms timeOf randint initRng none repeats seed
          (lo, hi)
        = compare_sorting_algorithms timeOf randint initRng
            (some [10, 100, 1000, 5000]) repeats seed (lo, hi)
    ∧ defaultListSizes = [10, 100, 1000, 5000]
    ∧ defaultRepeats = 5 :=
  ⟨length_compareLoop timeOf randint lo hi repeats sizes (initRng seed),
    fun i sz d hsz hd =>
      compareLoop_getElem timeOf randint lo hi repeats sizes (initRng seed)
        i sz d hsz hd,
    datasetsLoop_bounds randint lo hi hcon hrange sizes (initRng seed),
    rfl, rfl, rfl⟩

theorem compare_results_shape_witness :
    (5 : ℤ) ≤ 9
    ∧ (compare_sorting_algorithms (fun _ _ _ => (0 : Nat))
        (fun (g : ℤ) (a _ : ℤ) => (a, g)) (fun s => s) (some [1, 2]) 3 0
        (5, 9)).length = ([1, 2] : List Nat).length :=
  ⟨by decide,
    (compare_results_shape (fun _ _ _ => (0 : Nat))
      (fun (g : ℤ) (a _ : ℤ) => (a, g)) (fun s => s) 3 0 5 9 [1, 2]
      (fun g a b h => ⟨le_refl a, h⟩) (by decide)).1⟩

/-- C10: all three sort routines terminate on every finite input, with
the termination measures of the source: the inner shift loop of
`insertion_sort` runs at most `j + 1` iterations (index `j` strictly
decreases toward `-1`), `merge`'s main loop runs at most
`len(left) + len(right)` iterations (`left_index + right_index` strictly
increases), and `merge_sort` recurses only on strictly shorter halves, to
depth at most the length.  With that much fuel the fuel-indexed versions
never run out and compute the total functions. -/
theorem sorts_terminate {α : Type*} {κ : Type*} [LinearOrder κ] (k : α → κ) :
    (∀ (key : α) (lst : List α) (j fuel : Nat), j < fuel →
        insertKeyLoopFuel k key fuel lst j = some (insertKeyLoop k key lst j))
    ∧ (∀ (l r : List α) (fuel : Nat), l.length + r.length < fuel →
        mergeFuel k fuel l r = some (merge k l r))
    ∧ (∀ (arr : List α) (fuel : Nat), arr.length < fuel →
        merge_sortFuel k fuel arr = some (merge_sort k arr))
    ∧ (∀ arr : List α, ¬ arr.length ≤ 1 →
        (arr.take (arr.length / 2)).length < arr.length
        ∧ (arr.drop (arr.length / 2)).length < arr.length) :=
  ⟨fun key lst j fuel h => insertKeyLoopFuel_eq k key j fuel lst h,
    fun l r fuel h => mergeFuel_eq k fuel l r h,
    fun arr fuel h => merge_sortFuel_eq k fuel arr h,
    fun _ h => ⟨length_take_half_lt h, length_drop_half_lt h⟩⟩

theorem sorts_terminate_witness :
    ([1] : List ℤ).length + ([2] : List ℤ).length < 5
    ∧ mergeFuel (id : ℤ → ℤ) 5 [1] [2] = some (merge id [1] [2]) :=
  ⟨by decide, (sorts_terminate (id : ℤ → ℤ)).2.1 [1] [2] 5 (by decide)⟩

end Task
